import Mathlib

set_option maxRecDepth 200000

namespace UploaderBot

/-!
Shallow embedding of `bot.py` (pyuploader/uploader_bot1).

The bot's logic is translated function by function, keeping the source's
names.  External collaborators are modelled at their call boundary:

* `urllib.parse` (`urlparse`, `urljoin`) is embedded below following the
  CPython implementation (scheme/netloc/query/fragment splitting, params
  splitting, RFC 3986 relative-reference resolution), specialised to the
  `allow_fragments=True` mode the bot always uses.  The IPv6-bracket and
  netloc sanity checks that can make CPython raise are not modelled
  (`bot.py` wraps both call sites in `try/except`, so those exceptional
  paths only convert a malformed URL into `""`/`False` there).  Character
  case mapping (`str.lower`) is modelled on the ASCII range, which covers
  every URL the bot's configuration and the spec's scenarios mention.
* `hashlib.sha1(...).hexdigest()` is embedded as a complete SHA-1
  implementation over the UTF-8 bytes of the input string, with 32-bit
  words represented as `Nat` reduced mod 2^32.
* HTML fetching plus parsing (`requests` + `BeautifulSoup`) is modelled as
  a function `String → Option Page`: `none` stands for `fetch_html`
  returning `""` (network error, non-200 status, or non-HTML content
  type), and `some pg` stands for a parsed page carrying the `href`/`src`
  attribute values of its `<a>`, `<source>` and `<video>` tags in document
  order.
* The download directory is modelled as a map from path to file size, the
  body of a streamed HTTP response as the list of its chunk sizes, and the
  Telegram client as a boolean-valued delivery function.
-/

/-! ## Generic character/list helpers (Python string primitives) -/

/-- `str.lower` (ASCII case mapping; the bot's URLs are ASCII). -/
def pyLower (s : String) : String := String.mk (s.data.map Char.toLower)

/-- `str.endswith ext`: the last `ext.length` characters of `s` equal `ext`.
If `ext` is longer than `s` the drop is a no-op and the comparison fails. -/
def pyEndsWith (s ext : String) : Bool :=
  decide (s.data.drop (s.data.length - ext.data.length) = ext.data)

/-- Index of the first character satisfying `p` (the `str.find` family). -/
def findIdxP (p : Char → Bool) : List Char → Option Nat
  | [] => none
  | c :: cs => if p c then some 0 else (findIdxP p cs).map (· + 1)

/-- Python `str.split(sep)` for a one-character separator: always returns at
least one (possibly empty) piece. -/
def splitOnChar (c : Char) : List Char → List (List Char)
  | [] => [[]]
  | x :: xs =>
    let r := splitOnChar c xs
    if x = c then [] :: r
    else
      match r with
      | [] => [[x]]
      | h :: t => (x :: h) :: t

/-! ## Model of `urllib.parse` (CPython) -/

/-- CPython `urlsplit` removes ASCII tab/CR/LF wherever they occur. -/
def removeUnsafe (l : List Char) : List Char :=
  l.filter (fun c => !(c = '\t' || c = '\r' || c = '\n'))

/-- Characters allowed in a URL scheme after the leading letter. -/
def scheme_chars : List Char :=
  "abcdefghijklmnopqrstuvwxyzABCDEFGHIJKLMNOPQRSTUVWXYZ0123456789+-.".data

/-- `c.isascii() and c.isalpha()`. -/
def isAsciiAlpha (c : Char) : Bool :=
  ('a' ≤ c && c ≤ 'z') || ('A' ≤ c && c ≤ 'Z')

structure SplitResult where
  scheme : String
  netloc : String
  path : String
  query : String
  fragment : String
deriving DecidableEq, Repr

/-- Scheme stage of CPython `urlsplit`: split `scheme:` off when the part
before the first `:` is a letter followed by scheme characters; otherwise
keep the default scheme. -/
def splitScheme (ds l : List Char) : List Char × List Char :=
  match findIdxP (· = ':') l with
  | some i =>
    if 0 < i && (match l.head? with | some c => isAsciiAlpha c | none => false)
        && (l.take i).all (fun c => scheme_chars.contains c) then
      ((l.take i).map Char.toLower, l.drop (i + 1))
    else (ds, l)
  | none => (ds, l)

/-- Netloc stage of CPython `urlsplit` (`_splitnetloc`): after a leading
`//`, the netloc extends to the first of `/`, `?`, `#`. -/
def splitNetloc (l : List Char) : List Char × List Char :=
  if l.take 2 = ['/', '/'] then
    let after := l.drop 2
    let i := (findIdxP (fun c => c = '/' || c = '?' || c = '#') after).getD after.length
    (after.take i, after.drop i)
  else ([], l)

/-- `url.split(c, 1)` when `c` occurs, `(url, "")` otherwise. -/
def splitAtChar (c : Char) (l : List Char) : List Char × List Char :=
  match findIdxP (· = c) l with
  | some i => (l.take i, l.drop (i + 1))
  | none => (l, [])

/-- CPython `urlsplit(url, scheme=default_scheme, allow_fragments=True)`:
split off `scheme:`, then `//netloc` (up to the first of `/?#`), then the
`#fragment`, then the `?query`; what remains is the path. -/
def urlsplitWith (default_scheme : String) (url : String) : SplitResult :=
  let l := removeUnsafe url.data
  let sr := splitScheme (removeUnsafe default_scheme.data) l
  let nr := splitNetloc sr.2
  let fr := splitAtChar '#' nr.2
  let qr := splitAtChar '?' fr.1
  ⟨String.mk sr.1, String.mk nr.1, String.mk qr.1, String.mk qr.2, String.mk fr.2⟩

def urlsplit (url : String) : SplitResult := urlsplitWith "" url

def uses_relative : List String :=
  ["", "ftp", "http", "gopher", "nntp", "imap", "wais", "file", "https",
   "shttp", "mms", "prospero", "rtsp", "rtspu", "sftp", "svn", "svn+ssh",
   "ws", "wss"]

def uses_netloc : List String :=
  ["", "ftp", "http", "gopher", "nntp", "telnet", "imap", "wais", "file",
   "mms", "https", "shttp", "snews", "prospero", "rtsp", "rtspu", "rsync",
   "svn", "svn+ssh", "sftp", "nfs", "git", "git+ssh", "ws", "wss"]

def uses_params : List String :=
  ["", "ftp", "hdl", "prospero", "http", "imap", "https", "shttp", "rtsp",
   "rtspu", "sip", "sips", "mms", "sftp", "tel"]

/-- CPython `_splitparams`: split `;params` off the last path segment. -/
def splitparams (p : String) : String × String :=
  let l := p.data
  let iOpt :=
    if l.contains '/' then
      let r := (findIdxP (· = '/') l.reverse).getD 0
      let start := l.length - 1 - r
      (findIdxP (· = ';') (l.drop start)).map (· + start)
    else findIdxP (· = ';') l
  match iOpt with
  | none => (p, "")
  | some i => (String.mk (l.take i), String.mk (l.drop (i + 1)))

structure ParseResult where
  scheme : String
  netloc : String
  path : String
  params : String
  query : String
  fragment : String
deriving DecidableEq, Repr

/-- CPython `urlparse`: `urlsplit` plus params splitting for schemes that
use them. -/
def urlparseWith (default_scheme url : String) : ParseResult :=
  let s := urlsplitWith default_scheme url
  if uses_params.contains s.scheme && s.path.data.contains ';' then
    let pr := splitparams s.path
    ⟨s.scheme, s.netloc, pr.1, pr.2, s.query, s.fragment⟩
  else ⟨s.scheme, s.netloc, s.path, "", s.query, s.fragment⟩

def urlparse (url : String) : ParseResult := urlparseWith "" url

/-- CPython `urlunsplit`. -/
def urlunsplit (scheme netloc path query fragment : String) : String :=
  let url :=
    if netloc ≠ "" ∨ path.data.take 2 = ['/', '/'] then
      let url1 := if path ≠ "" ∧ path.data.take 1 ≠ ['/'] then "/" ++ path else path
      "//" ++ netloc ++ url1
    else path
  let url := if scheme ≠ "" then scheme ++ ":" ++ url else url
  let url := if query ≠ "" then url ++ "?" ++ query else url
  if fragment ≠ "" then url ++ "#" ++ fragment else url

/-- CPython `urlunparse`. -/
def urlunparse (scheme netloc path params query fragment : String) : String :=
  let url := if params ≠ "" then path ++ ";" ++ params else path
  urlunsplit scheme netloc url query fragment

/-- `segments[1:-1] = filter(None, segments[1:-1])` in CPython `urljoin`:
drop empty segments, keeping the first and last ones. -/
def filterMiddle (segs : List String) : List String :=
  match segs with
  | [] => []
  | [a] => [a]
  | a :: rest => a :: ((rest.dropLast.filter (fun s => s != "")) ++ [rest.getLastD ""])

/-- The `'..'`/`'.'` resolution loop of CPython `urljoin` (popping on `..`
is a no-op on an empty accumulator, like the swallowed `IndexError`). -/
def resolveSegs : List String → List String → List String
  | acc, [] => acc
  | acc, seg :: rest =>
    if seg = ".." then resolveSegs acc.dropLast rest
    else if seg = "." then resolveSegs acc rest
    else resolveSegs (acc ++ [seg]) rest

def splitSlash (s : String) : List String :=
  (splitOnChar '/' s.data).map String.mk

def joinSlash : List String → String
  | [] => ""
  | [s] => s
  | s :: rest => s ++ "/" ++ joinSlash rest

/-- CPython `urljoin(base, url)` (with `allow_fragments=True`). -/
def urljoin (base url : String) : String :=
  if base = "" then url
  else if url = "" then base
  else
    let b := urlparseWith "" base
    let u := urlparseWith b.scheme url
    if u.scheme ≠ b.scheme ∨ ¬ u.scheme ∈ uses_relative then url
    else if uses_netloc.contains u.scheme && !(u.netloc == "") then
      urlunparse u.scheme u.netloc u.path u.params u.query u.fragment
    else
      let netloc := if uses_netloc.contains u.scheme then b.netloc else u.netloc
      if u.path = "" ∧ u.params = "" then
        let query := if u.query = "" then b.query else u.query
        urlunparse u.scheme netloc b.path b.params query u.fragment
      else
        let base_parts0 := splitSlash b.path
        let base_parts :=
          if base_parts0.getLastD "" ≠ "" then base_parts0.dropLast else base_parts0
        let segments :=
          if u.path.data.take 1 = ['/'] then splitSlash u.path
          else filterMiddle (base_parts ++ splitSlash u.path)
        let resolved0 := resolveSegs [] segments
        let lastSeg := segments.getLastD ""
        let resolved :=
          if lastSeg = "." ∨ lastSeg = ".." then resolved0 ++ [""] else resolved0
        let joined := joinSlash resolved
        urlunparse u.scheme netloc (if joined = "" then "/" else joined)
          u.params u.query u.fragment

/-! ## Model of `hashlib.sha1(...).hexdigest()` -/

/-- UTF-8 encoding of one code point, as byte values. -/
def utf8EncodeCharNat (c : Char) : List Nat :=
  let n := c.toNat
  if n < 128 then [n]
  else if n < 2048 then [192 + n / 64, 128 + n % 64]
  else if n < 65536 then [224 + n / 4096, 128 + (n / 64) % 64, 128 + n % 64]
  else [240 + n / 262144, 128 + (n / 4096) % 64, 128 + (n / 64) % 64, 128 + n % 64]

/-- `s.encode("utf-8")` as a list of byte values. -/
def utf8Bytes (s : String) : List Nat :=
  s.data.foldr (fun c acc => utf8EncodeCharNat c ++ acc) []

/-- 32-bit left rotation: the shifted halves occupy disjoint bit ranges, so
addition agrees with bitwise or. -/
def rotl32 (x n : Nat) : Nat := ((x <<< n) + (x >>> (32 - n))) % 4294967296

structure Sha1State where
  h0 : Nat
  h1 : Nat
  h2 : Nat
  h3 : Nat
  h4 : Nat
deriving Repr

def sha1K (t : Nat) : Nat :=
  if t < 20 then 1518500249 else if t < 40 then 1859775393
  else if t < 60 then 2400959708 else 3395469782

def sha1F (t b c d : Nat) : Nat :=
  if t < 20 then (b &&& c) ||| ((4294967295 ^^^ b) &&& d)
  else if t < 40 then (b ^^^ c) ^^^ d
  else if t < 60 then ((b &&& c) ||| (b &&& d)) ||| (c &&& d)
  else (b ^^^ c) ^^^ d

/-- The 16 big-endian 32-bit words of one 64-byte block. -/
def wordsOfBlock (block : List Nat) : List Nat :=
  (List.range 16).map (fun i =>
    ((block.getD (4 * i) 0) <<< 24) + ((block.getD (4 * i + 1) 0) <<< 16) +
    ((block.getD (4 * i + 2) 0) <<< 8) + block.getD (4 * i + 3) 0)

/-- Extend 16 words to the 80-word message schedule. -/
def extendW (w16 : List Nat) : List Nat :=
  (List.range 80).foldl (fun acc t =>
    if t < 16 then acc ++ [w16.getD t 0]
    else acc ++ [rotl32 ((((acc.getD (t - 3) 0) ^^^ (acc.getD (t - 8) 0)) ^^^
      (acc.getD (t - 14) 0)) ^^^ (acc.getD (t - 16) 0)) 1]) []

def processBlock (st : Sha1State) (block : List Nat) : Sha1State :=
  let w := extendW (wordsOfBlock block)
  let r := (List.range 80).foldl (fun p t =>
    match p with
    | (a, b, c, d, e) =>
      let temp := (rotl32 a 5 + sha1F t b c d + e + sha1K t + w.getD t 0) % 4294967296
      (temp, a, rotl32 b 30, c, d)) (st.h0, st.h1, st.h2, st.h3, st.h4)
  match r with
  | (a, b, c, d, e) =>
    ⟨(st.h0 + a) % 4294967296, (st.h1 + b) % 4294967296, (st.h2 + c) % 4294967296,
     (st.h3 + d) % 4294967296, (st.h4 + e) % 4294967296⟩

/-- `w`-byte big-endian encoding of `n`. -/
def toBE (w n : Nat) : List Nat :=
  (List.range w).map (fun i => (n >>> (8 * (w - 1 - i))) % 256)

/-- SHA-1 padding: `0x80`, zeros to 56 mod 64, then the 64-bit bit length. -/
def sha1pad (msg : List Nat) : List Nat :=
  let z := (64 + 56 - ((msg.length + 1) % 64)) % 64
  msg ++ [128] ++ List.replicate z 0 ++ toBE 8 (8 * msg.length)

/-- Fold `processBlock` over the 64-byte blocks; `fuel` bounds the number of
blocks (the padded length suffices since each block consumes 64 bytes). -/
def sha1Blocks : Nat → Sha1State → List Nat → Sha1State
  | 0, st, _ => st
  | _ + 1, st, [] => st
  | fuel + 1, st, l => sha1Blocks fuel (processBlock st (l.take 64)) (l.drop 64)

def hexDigits : List Char := "0123456789abcdef".data

def hex8 (n : Nat) : List Char :=
  (List.range 8).map (fun i => hexDigits.getD ((n >>> (4 * (7 - i))) % 16) '0')

/-- `bot.py` line 60: `sha1(s) = hashlib.sha1(s.encode("utf-8")).hexdigest()`. -/
def sha1 (s : String) : String :=
  let padded := sha1pad (utf8Bytes s)
  let st := sha1Blocks padded.length
    ⟨1732584193, 4023233417, 2562383102, 271733878, 3285377520⟩ padded
  String.mk (hex8 st.h0 ++ hex8 st.h1 ++ hex8 st.h2 ++ hex8 st.h3 ++ hex8 st.h4)

/-! ## `bot.py` configuration and pure helpers -/

def WANTED_EXTS : List String := [".mp4", ".pdf"]

def MAX_PAGES_PER_SITE : Nat := 500

/-- `bot.py` line 73: `same_host(url, host) = urlparse(url).netloc == host`. -/
def same_host (url : String) (host : String) : Bool :=
  (urlparse url).netloc == host

/-- `bot.py` line 79: `normalize_link(base, href) = urljoin(base, href)`. -/
def normalize_link (base href : String) : String := urljoin base href

/-- `bot.py` line 85: `is_wanted_file(url)` lowercases the whole URL string
and tests it against each wanted extension with `str.endswith`. -/
def is_wanted_file (url : String) : Bool :=
  let lower := pyLower url
  WANTED_EXTS.any (fun ext => pyEndsWith lower ext)

/-! ## `crawl_site` (bot.py lines 98-146)

A fetched-and-parsed page: the attribute values the crawler reads, in
document order.  `fetch_html` plus `BeautifulSoup` is modelled by a pure
function `String → Option Page` (the "network"); `none` models
`fetch_html` returning `""`. -/

structure Page where
  anchors : List String
  sources : List String
  videos : List String
deriving Repr

/-- `tags = soup.find_all("a") ++ soup.find_all("source") ++ soup.find_all("video")`. -/
def page_tags (pg : Page) : List String := pg.anchors ++ pg.sources ++ pg.videos

/-- The file-collection loop (bot.py 123-131): resolve each tag's link
against the page URL and append it to `found_files` when it matches a
wanted extension.  Empty `href`s and empty join results are skipped. -/
def collect_files (page_url : String) (hrefs found_files : List String) : List String :=
  hrefs.foldl (fun acc href =>
    if href = "" then acc
    else
      let abs_url := normalize_link page_url href
      if abs_url = "" then acc
      else if is_wanted_file abs_url then acc ++ [abs_url] else acc) found_files

/-- The traversal loop (bot.py 134-137): enqueue each anchor's resolved
link when it is on the start host and neither seen nor already queued. -/
def enqueue_links (host page_url : String) (seen_pages : List String)
    (hrefs to_visit : List String) : List String :=
  hrefs.foldl (fun q href =>
    let nxt := normalize_link page_url href
    if nxt ≠ "" ∧ same_host nxt host = true ∧ nxt ∉ seen_pages ∧ nxt ∉ q
    then q ++ [nxt] else q) to_visit

/-- Pop queue entries that are already in `seen_pages` (each such pop is a
loop iteration in bot.py that changes no state: lines 106-108). -/
def pop_unseen (seen_pages : List String) : List String → Option (String × List String)
  | [] => none
  | url :: rest => if url ∈ seen_pages then pop_unseen seen_pages rest else some (url, rest)

/-- The `while to_visit and len(seen_pages) < MAX_PAGES_PER_SITE` loop
(bot.py 105-137).  `fuel` is the remaining page budget
`maxPages - len(seen_pages)`: the loop guard `len(seen_pages) < maxPages`
holds exactly when `fuel` is a successor, and every iteration that changes
any state adds one page to `seen_pages`.  Iterations that pop an
already-seen URL leave all state unchanged, so they are compressed into
`pop_unseen`; the returned pair is `(found_files, seen_pages)`. -/
def crawl_go (net : String → Option Page) (host : String) :
    Nat → List String → List String → List String → List String × List String
  | 0, _, seen_pages, found_files => (found_files, seen_pages)
  | fuel + 1, to_visit, seen_pages, found_files =>
    match pop_unseen seen_pages to_visit with
    | none => (found_files, seen_pages)
    | some (url, rest) =>
      let seen' := seen_pages ++ [url]
      match net url with
      | none => crawl_go net host fuel rest seen' found_files
      | some page =>
        crawl_go net host fuel
          (enqueue_links host url seen' page.anchors rest)
          seen'
          (collect_files url (page_tags page) found_files)

/-- The post-traversal deduplication (bot.py 139-146): one pass keeping
first occurrences; `seen` mirrors the Python helper set. -/
def dedup_keep_order (found_files : List String) : List String :=
  (found_files.foldl (fun (acc : List String × List String) f =>
    if f ∈ acc.2 then acc else (acc.1 ++ [f], acc.2 ++ [f])) ([], [])).1

/-- `crawl_site` with the page cap as a parameter, also returning the
final `seen_pages` list (in visit order) so that claims about visited
pages can be stated.  `host = urlparse(start_url).netloc` (bot.py 100). -/
def crawl_site_with_seen (net : String → Option Page) (start_url : String)
    (maxPages : Nat) : List String × List String :=
  let host := (urlparse start_url).netloc
  let r := crawl_go net host maxPages [start_url] [] []
  (dedup_keep_order r.1, r.2)

/-- `bot.py` lines 98-146: `crawl_site(start_url)`, returning the
deduplicated list of discovered file URLs. -/
def crawl_site (net : String → Option Page) (start_url : String) : List String :=
  (crawl_site_with_seen net start_url MAX_PAGES_PER_SITE).1

/-! ## `download_file` (bot.py lines 148-167)

The download directory is modelled as a map from path to file size
(`none` = no file at that path).  The HTTP response to the streaming GET
is modelled by `DlResp`: either the request itself raises, or it yields a
status code and the sizes of the chunks `iter_content` would produce,
with `interruptAfter = some k` modelling an I/O or network exception
raised after the first `k` chunks were written to the temporary file. -/

def Fs : Type := String → Option Nat

def fsWrite (fs : Fs) (p : String) (sz : Nat) : Fs :=
  fun q => if q = p then some sz else fs q

/-- `tmp.rename(dest)`: `dest` receives `tmp`'s content, `tmp` disappears. -/
def fsRename (fs : Fs) (src dst : String) : Fs :=
  fun q => if q = src then none else if q = dst then fs src else fs q

inductive DlResp where
  | netError
  | resp (status : Nat) (chunks : List Nat) (interruptAfter : Option Nat)

/-- Bytes written by the chunk loop: `if chunk: f.write(chunk)` skips empty
chunks, which contribute no bytes either way. -/
def chunksSize (chunks : List Nat) : Nat := ((chunks.filter (fun c => 0 < c)).sum)

/-- `name = Path(urlparse(file_url).path).name`: the final component of a
POSIX path — the last segment after dropping empty and `.` segments
(`pathlib` normalises those away); `""` for a root or empty path. -/
def posixPathName (p : String) : String :=
  ((((splitOnChar '/' p.data).map String.mk).filter
    (fun s => s != "" && s != ".")).getLastD "")

/-- bot.py line 149: `Path(urlparse(file_url).path).name or sha1(file_url)`. -/
def artifact_name (file_url : String) : String :=
  let n := posixPathName (urlparse file_url).path
  if n = "" then sha1 file_url else n

/-- bot.py line 150: `dest = dest_dir / name`. -/
def artifact_dest (file_url dest_dir : String) : String :=
  dest_dir ++ "/" ++ artifact_name file_url

/-- The `with session.get(...)` part of `download_file` (bot.py 153-167):
reached only when `dest` does not already hold a non-empty file.
`dest.with_suffix(dest.suffix + ".part")` strips `dest`'s suffix and
appends `suffix + ".part"`, i.e. it always equals `dest ++ ".part"`. -/
def download_file_net (r : DlResp) (dest : String) (fs : Fs) : Fs × Option String :=
  match r with
  | .netError => (fs, none)
  | .resp status chunks interruptAfter =>
    if status ≠ 200 then (fs, none)
    else
      let tmp := dest ++ ".part"
      match interruptAfter with
      | some k => (fsWrite fs tmp (chunksSize (chunks.take k)), none)
      | none =>
        let fs1 := fsWrite fs tmp (chunksSize chunks)
        (fsRename fs1 tmp dest, some dest)

/-- `bot.py` lines 148-167: skip when `dest.exists()` with positive
`st_size`, otherwise stream to the `.part` sibling and promote it.
Returns the updated directory contents and `some dest` on success /
`none` on failure. -/
def download_file (r : DlResp) (file_url dest_dir : String) (fs : Fs) :
    Fs × Option String :=
  let dest := artifact_dest file_url dest_dir
  match fs dest with
  | some sz => if 0 < sz then (fs, some dest) else download_file_net r dest fs
  | none => download_file_net r dest fs

/-! ## `process_all` (bot.py lines 182-213)

One run of the orchestrator (`runOnce` in the spec).  The Telegram client
and `download_file`'s outcome are modelled by an environment; the run
additionally records an event trace: which URLs were fetched
(`download_file` invoked), which deliveries were attempted and their
outcome, and each `save_sent` call with the ledger it persisted. -/

structure OrchEnv where
  net : String → Option Page
  download : String → Option String
  send : String → Bool

inductive Ev where
  | fetch (url : String)
  | deliver (url : String) (ok : Bool)
  | persist (sent : List String)
deriving DecidableEq, Repr

structure OState where
  sent : List String
  disk : List String
  total_new : Nat
  events : List Ev
deriving Repr

/-- `sent.add(file_id)` (Python set add: no-op when already present). -/
def ledger_add (sent : List String) (file_id : String) : List String :=
  if file_id ∈ sent then sent else sent ++ [file_id]

/-- The body of the `for file_url in files` loop (bot.py 197-211). -/
def process_file (env : OrchEnv) (st : OState) (file_url : String) : OState :=
  let file_id := sha1 file_url
  if file_id ∈ st.sent then st
  else
    let st1 := { st with events := st.events ++ [Ev.fetch file_url] }
    match env.download file_url with
    | none => st1
    | some localPath =>
      let ok := env.send localPath
      let st2 := { st1 with events := st1.events ++ [Ev.deliver file_url ok] }
      if ok then
        let sent' := ledger_add st2.sent file_id
        { sent := sent', disk := sent', total_new := st2.total_new + 1,
          events := st2.events ++ [Ev.persist sent'] }
      else st2

/-- One StartPoint (bot.py 192-211): crawl, then process each file. -/
def process_start (env : OrchEnv) (st : OState) (start : String) : OState :=
  (crawl_site env.net start).foldl (process_file env) st

/-- One full cycle (`runOnce`): `sent = load_sent()` is the ledger read
from disk, `total_new` starts at 0 (bot.py 189-213). -/
def process_all (env : OrchEnv) (start_urls : List String) (sent0 : List String) : OState :=
  start_urls.foldl (process_start env)
    { sent := sent0, disk := sent0, total_new := 0, events := [] }

/-- Count of `deliver _ true` events (successful deliveries) in a trace. -/
def delivered_ok_count (evs : List Ev) : Nat :=
  (evs.filter (fun e => match e with | .deliver _ true => true | _ => false)).length

/-! ## Specification-side and proof-side definitions -/

/-- The classification rule in the words of the spec (§4.2 and claim C4):
the lowercased *path component* of the URL ends with a configured wanted
suffix.  Stated for comparison with the code's `is_wanted_file`, which
tests the whole URL string. -/
def spec_is_file_candidate (url : String) : Bool :=
  WANTED_EXTS.any (fun ext => pyEndsWith (pyLower (urlparse url).path) ext)

/-- A download response on which the body is not fully retrieved: the GET
raises, the status is not 200, or streaming is interrupted. -/
def resp_failed : DlResp → Bool
  | .netError => true
  | .resp status _ interruptAfter => status != 200 || interruptAfter.isSome

/-- Recursive form of the deduplication loop: the accumulator is the
`dedup` list, membership in it standing for the mirror set `seen`. -/
def dedup_go : List String → List String → List String
  | acc, [] => acc
  | acc, f :: rest => if f ∈ acc then dedup_go acc rest else dedup_go (acc ++ [f]) rest

/-- Position of the first occurrence of `x` (list length when absent). -/
def firstIdx (x : String) : List String → Nat
  | [] => 0
  | y :: ys => if y = x then 0 else firstIdx x ys + 1

/-- The first-occurrence subsequence of a list: keep each element at its
first appearance, dropping all later duplicates. -/
def firstOccurrences : List String → List String
  | [] => []
  | x :: xs => x :: firstOccurrences (xs.filter (fun y => y != x))
termination_by l => l.length
decreasing_by
  simp only [List.length_cons]
  exact Nat.lt_succ_of_le (List.length_filter_le _ _)

/-- The two-page site of the spec's end-to-end scenario (claim C3):
`index.html` links to `a.pdf` and `page2.html`; `page2.html` links to
`b.mp4` and back to `index.html`; every other URL is not an HTML page. -/
def scenario_net : String → Option Page := fun u =>
  if u = "http://h/index.html" then some ⟨["a.pdf", "page2.html"], [], []⟩
  else if u = "http://h/page2.html" then some ⟨["b.mp4", "index.html"], [], []⟩
  else none

/-- A one-page site whose page repeats a link (for exercising the
deduplication order claim on a concrete input). -/
def dup_net : String → Option Page := fun u =>
  if u = "http://h/index.html" then some ⟨["a.pdf", "b.pdf", "a.pdf"], [], []⟩
  else none

/-- A one-page site linking to a file on a different host (for exercising
the host-containment claim on a concrete input). -/
def foreign_net : String → Option Page := fun u =>
  if u = "http://h/index.html" then some ⟨["http://other/f.pdf"], [], []⟩
  else none

/-- An orchestrator environment over the scenario site in which every
download and every delivery succeeds. -/
def wenv : OrchEnv :=
  ⟨scenario_net, fun u => some ("downloads/" ++ artifact_name u), fun _ => true⟩

/-! # Theorems -/

/-! ## Small facts about the filesystem model -/

theorem string_ne_append_part (s : String) : s ≠ s ++ ".part" := by
  intro h
  have hlen := congrArg String.length h
  simp [String.length_append] at hlen
  exact absurd hlen (by decide)

theorem fsWrite_same (fs : Fs) (p : String) (sz : Nat) : fsWrite fs p sz p = some sz := by
  simp [fsWrite]

theorem fsWrite_other (fs : Fs) (p q : String) (sz : Nat) (h : q ≠ p) :
    fsWrite fs p sz q = fs q := by
  simp [fsWrite, h]

/-! ## C8: atomic artifact promotion in `download_file` -/

/-- C8.  `download_file` (i) short-circuits without touching the network
when the destination already holds a non-empty file — the result does not
depend on the response at all; (ii) on a failed response (request error,
non-200 status, or an interruption mid-stream) it reports failure and
changes nothing outside the `.part` sibling, so no file appears at the
destination path; (iii) on a full 200 response it writes the whole body
to the `.part` sibling, renames it onto the destination, and reports the
destination path. -/
theorem C8_download_file_atomic (file_url dest_dir : String) (fs : Fs) :
    (∀ sz, fs (artifact_dest file_url dest_dir) = some sz → 0 < sz →
      ∀ r, download_file r file_url dest_dir fs = (fs, some (artifact_dest file_url dest_dir))) ∧
    (∀ r, resp_failed r = true →
      (∀ sz, fs (artifact_dest file_url dest_dir) = some sz → sz = 0) →
      (download_file r file_url dest_dir fs).2 = none ∧
      (∀ p, p ≠ artifact_dest file_url dest_dir ++ ".part" →
        (download_file r file_url dest_dir fs).1 p = fs p)) ∧
    (∀ chunks, (∀ sz, fs (artifact_dest file_url dest_dir) = some sz → sz = 0) →
      (download_file (DlResp.resp 200 chunks none) file_url dest_dir fs).2 =
        some (artifact_dest file_url dest_dir) ∧
      (download_file (DlResp.resp 200 chunks none) file_url dest_dir fs).1
        (artifact_dest file_url dest_dir) = some (chunksSize chunks) ∧
      (download_file (DlResp.resp 200 chunks none) file_url dest_dir fs).1
        (artifact_dest file_url dest_dir ++ ".part") = none ∧
      (∀ p, p ≠ artifact_dest file_url dest_dir →
        p ≠ artifact_dest file_url dest_dir ++ ".part" →
        (download_file (DlResp.resp 200 chunks none) file_url dest_dir fs).1 p = fs p)) := by
  set dest := artifact_dest file_url dest_dir with hdest
  have hnet : ∀ r, resp_failed r = true →
      (download_file_net r dest fs).2 = none ∧
      (∀ p, p ≠ dest ++ ".part" → (download_file_net r dest fs).1 p = fs p) := by
    intro r hr
    cases r with
    | netError => exact ⟨rfl, fun p _ => rfl⟩
    | resp status chunks interruptAfter =>
      by_cases hs : status = 200
      · subst hs
        cases interruptAfter with
        | none => simp [resp_failed] at hr
        | some k =>
          refine ⟨by simp [download_file_net], fun p hp => ?_⟩
          simp [download_file_net, fsWrite, hp]
      · refine ⟨by simp [download_file_net, hs], fun p _ => ?_⟩
        simp [download_file_net, hs]
  have hskipcase : ∀ r, (∀ sz, fs dest = some sz → sz = 0) →
      download_file r file_url dest_dir fs = download_file_net r dest fs := by
    intro r hz
    cases hfs : fs dest with
    | none => simp [download_file, ← hdest, hfs]
    | some sz =>
      have : sz = 0 := hz sz hfs
      subst this
      simp [download_file, ← hdest, hfs]
  refine ⟨?_, ?_, ?_⟩
  · intro sz hsz hpos r
    simp [download_file, ← hdest, hsz, hpos]
  · intro r hr hz
    rw [hskipcase r hz]
    exact hnet r hr
  · intro chunks hz
    rw [hskipcase _ hz]
    have hne : dest ≠ dest ++ ".part" := string_ne_append_part dest
    refine ⟨by simp [download_file_net], ?_, ?_, ?_⟩
    · simp only [download_file_net]
      simp [fsRename, fsWrite, hne]
    · simp only [download_file_net]
      simp [fsRename]
    · intro p hp1 hp2
      simp only [download_file_net]
      simp [fsRename, fsWrite, hp1, hp2]

/-- Witness for C8: on an empty download directory, fetching
`http://h/a.pdf` with a one-chunk 200 response succeeds, and fetching it
with a connection error fails. -/
theorem C8_download_file_atomic_witness :
    (download_file (DlResp.resp 200 [7] none) "http://h/a.pdf" "downloads"
      (fun _ => none)).2 = some (artifact_dest "http://h/a.pdf" "downloads") ∧
    (download_file DlResp.netError "http://h/a.pdf" "downloads" (fun _ => none)).2 = none := by
  have h := C8_download_file_atomic "http://h/a.pdf" "downloads" (fun _ => none)
  exact ⟨(h.2.2 [7] (fun sz hsz => by simp at hsz)).1,
    (h.2.1 DlResp.netError (by decide) (fun sz hsz => by simp at hsz)).1⟩

/-! ## C10: the artifact path depends only on the URL basename -/

/-- C10.  Two distinct file URLs whose paths end in the same non-empty
basename are mapped to the same destination path, and once that
destination holds a non-empty file after fetching the first URL, a fetch
of the second URL returns the same existing path unchanged, for every
possible response — i.e. without downloading the second URL's content. -/
theorem C10_artifact_path_by_basename (u1 u2 dir : String) (fs : Fs) (r1 : DlResp)
    (_hne : u1 ≠ u2)
    (hbase : posixPathName (urlparse u1).path = posixPathName (urlparse u2).path)
    (hnonempty : posixPathName (urlparse u1).path ≠ "") :
    artifact_dest u1 dir = artifact_dest u2 dir ∧
    (∀ sz, (download_file r1 u1 dir fs).1 (artifact_dest u1 dir) = some sz → 0 < sz →
      ∀ r2, download_file r2 u2 dir (download_file r1 u1 dir fs).1 =
        ((download_file r1 u1 dir fs).1, some (artifact_dest u1 dir))) := by
  have hname : artifact_name u1 = artifact_name u2 := by
    simp only [artifact_name, ← hbase]
    rw [if_neg hnonempty, if_neg hnonempty]
  have hdest : artifact_dest u1 dir = artifact_dest u2 dir := by
    simp [artifact_dest, hname]
  refine ⟨hdest, fun sz hsz hpos r2 => ?_⟩
  revert hsz
  generalize (download_file r1 u1 dir fs).1 = fs2
  intro hsz
  simp [download_file, ← hdest, hsz, hpos]

/-- Witness for C10: `http://h1/a.pdf` and `http://h2/sub/a.pdf` share the
basename `a.pdf`; after successfully fetching the first into an empty
directory, fetching the second with a connection-error response still
reports the same existing artifact. -/
theorem C10_artifact_path_by_basename_witness :
    artifact_dest "http://h1/a.pdf" "downloads" = artifact_dest "http://h2/sub/a.pdf" "downloads" ∧
    download_file DlResp.netError "http://h2/sub/a.pdf" "downloads"
        (download_file (DlResp.resp 200 [7] none) "http://h1/a.pdf" "downloads" (fun _ => none)).1 =
      ((download_file (DlResp.resp 200 [7] none) "http://h1/a.pdf" "downloads" (fun _ => none)).1,
       some (artifact_dest "http://h1/a.pdf" "downloads")) := by
  have h := C10_artifact_path_by_basename "http://h1/a.pdf" "http://h2/sub/a.pdf" "downloads"
    (fun _ => none) (DlResp.resp 200 [7] none) (by decide) (by decide) (by decide)
  exact ⟨h.1, h.2 7 (by decide) (by decide) DlResp.netError⟩

/-! ## Orchestrator lemmas -/

theorem delivered_ok_count_append (l1 l2 : List Ev) :
    delivered_ok_count (l1 ++ l2) = delivered_ok_count l1 + delivered_ok_count l2 := by
  simp [delivered_ok_count, List.filter_append]

theorem foldl_preserve {α : Type} (P : OState → Prop) (f : OState → α → OState)
    (hf : ∀ st a, P st → P (f st a)) :
    ∀ (l : List α) (st : OState), P st → P (l.foldl f st) := by
  intro l
  induction l with
  | nil => exact fun st h => h
  | cons a t ih => exact fun st h => ih _ (hf st a h)

theorem process_file_skip (env : OrchEnv) (st : OState) (url : String)
    (h : sha1 url ∈ st.sent) : process_file env st url = st := by
  simp [process_file, h]

theorem process_file_sent_mono (env : OrchEnv) (st : OState) (url : String) :
    ∀ a ∈ st.sent, a ∈ (process_file env st url).sent := by
  intro a ha
  by_cases h : sha1 url ∈ st.sent
  · rw [process_file_skip env st url h]; exact ha
  · simp only [process_file, if_neg h]
    cases env.download url with
    | none => exact ha
    | some p =>
      simp only
      by_cases hs : env.send p = true
      · simp only [hs, if_pos rfl, ledger_add]
        by_cases hm : sha1 url ∈ st.sent
        · simp [hm]; exact ha
        · simp [hm, List.mem_append]; exact Or.inl ha
      · simp only [Bool.not_eq_true] at hs
        simp [hs]; exact ha

theorem process_file_success_mem (env : OrchEnv) (st : OState) (url : String)
    (h : ∃ p, env.download url = some p ∧ env.send p = true) :
    sha1 url ∈ (process_file env st url).sent := by
  obtain ⟨p, hdl, hsend⟩ := h
  by_cases hm : sha1 url ∈ st.sent
  · rw [process_file_skip env st url hm]; exact hm
  · simp only [process_file, if_neg hm, hdl]
    simp only [hsend, if_pos rfl, ledger_add]
    by_cases hm2 : sha1 url ∈ st.sent
    · exact absurd hm2 hm
    · simp [hm2]

theorem fold_files_sent_mono (env : OrchEnv) (urls : List String) :
    ∀ st, ∀ a ∈ st.sent, a ∈ (urls.foldl (process_file env) st).sent := by
  intro st a ha
  exact foldl_preserve (fun s => a ∈ s.sent) (process_file env)
    (fun s u h => process_file_sent_mono env s u a h) urls st ha

theorem fold_files_success_mem (env : OrchEnv) (urls : List String) (url : String)
    (hmem : url ∈ urls) (h : ∃ p, env.download url = some p ∧ env.send p = true) :
    ∀ st, sha1 url ∈ (urls.foldl (process_file env) st).sent := by
  induction urls with
  | nil => cases hmem
  | cons a t ih =>
    intro st
    rcases List.mem_cons.mp hmem with heq | htail
    · subst heq
      exact fold_files_sent_mono env t (process_file env st url) (sha1 url)
        (process_file_success_mem env st url h)
    · exact ih htail (process_file env st a)

theorem process_start_sent_mono (env : OrchEnv) (s : String) :
    ∀ st, ∀ a ∈ st.sent, a ∈ (process_start env st s).sent := by
  intro st a ha
  exact fold_files_sent_mono env (crawl_site env.net s) st a ha

theorem fold_starts_success_mem (env : OrchEnv) (starts : List String) (s url : String)
    (hs : s ∈ starts) (hurl : url ∈ crawl_site env.net s)
    (h : ∃ p, env.download url = some p ∧ env.send p = true) :
    ∀ st, sha1 url ∈ (starts.foldl (process_start env) st).sent := by
  induction starts with
  | nil => cases hs
  | cons a t ih =>
    intro st
    rcases List.mem_cons.mp hs with heq | htail
    · subst heq
      have h1 : sha1 url ∈ (process_start env st s).sent :=
        fold_files_success_mem env (crawl_site env.net s) url hurl h st
      exact foldl_preserve (fun st2 => sha1 url ∈ st2.sent) (process_start env)
        (fun st2 b hb => process_start_sent_mono env b st2 (sha1 url) hb) t _ h1
    · exact ih htail (process_start env st a)

theorem process_file_disk_eq (env : OrchEnv) (st : OState) (url : String)
    (h : st.disk = st.sent) : (process_file env st url).disk = (process_file env st url).sent := by
  by_cases hm : sha1 url ∈ st.sent
  · rw [process_file_skip env st url hm]; exact h
  · simp only [process_file, if_neg hm]
    cases env.download url with
    | none => exact h
    | some p =>
      simp only
      by_cases hs : env.send p = true
      · simp [hs]
      · simp only [Bool.not_eq_true] at hs
        simp [hs]; exact h

theorem fold_files_all_skip (env : OrchEnv) (urls : List String) :
    ∀ st, (∀ url ∈ urls, sha1 url ∈ st.sent) → urls.foldl (process_file env) st = st := by
  induction urls with
  | nil => exact fun st _ => rfl
  | cons a t ih =>
    intro st h
    have ha := process_file_skip env st a (h a (List.mem_cons_self a t))
    rw [List.foldl_cons, ha]
    exact ih st (fun url hu => h url (List.mem_cons_of_mem a hu))

theorem fold_starts_all_skip (env : OrchEnv) (starts : List String) :
    ∀ st, (∀ s ∈ starts, ∀ url ∈ crawl_site env.net s, sha1 url ∈ st.sent) →
      starts.foldl (process_start env) st = st := by
  induction starts with
  | nil => exact fun st _ => rfl
  | cons a t ih =>
    intro st h
    have ha : process_start env st a = st :=
      fold_files_all_skip env (crawl_site env.net a) st (h a (List.mem_cons_self a t))
    rw [List.foldl_cons, ha]
    exact ih st (fun s hs url hu => h s (List.mem_cons_of_mem a hs) url hu)

/-! ## C1: per-resource ledger update and persistence -/

/-- C1.  One iteration of `process_all`'s per-resource loop, for a
resource not yet in the ledger: (success) if the download yields a local
path and the Telegram send succeeds, the fingerprint is appended to the
in-memory ledger and the very same updated ledger is written to disk in
the same step — i.e. before any further resource is processed — and the
counter is incremented; (failure) if the send fails, the in-memory
ledger, the on-disk ledger and the counter are all left unchanged and the
fingerprint is still absent, and (attempt) any later call on a state
still lacking the fingerprint attempts the resource again (a fetch event
is logged rather than the resource being skipped). -/
theorem C1_delivery_outcome_ledger (env : OrchEnv) (st : OState) (url p : String) :
    (sha1 url ∉ st.sent → env.download url = some p → env.send p = true →
      process_file env st url =
        { sent := st.sent ++ [sha1 url], disk := st.sent ++ [sha1 url],
          total_new := st.total_new + 1,
          events := st.events ++
            [Ev.fetch url, Ev.deliver url true, Ev.persist (st.sent ++ [sha1 url])] }) ∧
    (sha1 url ∉ st.sent → env.download url = some p → env.send p = false →
      (process_file env st url).sent = st.sent ∧
      (process_file env st url).disk = st.disk ∧
      (process_file env st url).total_new = st.total_new ∧
      (process_file env st url).events = st.events ++ [Ev.fetch url, Ev.deliver url false] ∧
      sha1 url ∉ (process_file env st url).sent) ∧
    (sha1 url ∉ st.sent →
      ∃ tail, (process_file env st url).events = st.events ++ Ev.fetch url :: tail) := by
  refine ⟨?_, ?_, ?_⟩
  · intro hm hdl hsend
    simp only [process_file, if_neg hm, hdl, hsend, if_pos rfl, ledger_add, if_neg hm]
    simp
  · intro hm hdl hsend
    simp only [process_file, if_neg hm, hdl, hsend]
    simp [hm]
  · intro hm
    simp only [process_file, if_neg hm]
    cases env.download url with
    | none => exact ⟨[], by simp⟩
    | some q =>
      simp only
      by_cases hs : env.send q = true
      · exact ⟨[Ev.deliver url true, Ev.persist (ledger_add st.sent (sha1 url))],
          by simp [hs]⟩
      · simp only [Bool.not_eq_true] at hs
        exact ⟨[Ev.deliver url false], by simp [hs]⟩

/-- Witness for C1: from an empty ledger, a successful delivery of
`http://h/a.pdf` appends its fingerprint, persists it, counts it, and
logs the three events. -/
theorem C1_delivery_outcome_ledger_witness :
    process_file wenv ⟨[], [], 0, []⟩ "http://h/a.pdf" =
      { sent := [sha1 "http://h/a.pdf"], disk := [sha1 "http://h/a.pdf"], total_new := 1,
        events := [Ev.fetch "http://h/a.pdf", Ev.deliver "http://h/a.pdf" true,
          Ev.persist [sha1 "http://h/a.pdf"]] } := by
  have h := (C1_delivery_outcome_ledger wenv ⟨[], [], 0, []⟩ "http://h/a.pdf"
    ("downloads/" ++ artifact_name "http://h/a.pdf")).1
    (by simp) rfl rfl
  simpa using h

/-! ## C9: the returned count -/

/-- C9.  After one full cycle, the counter returned by `process_all`
equals the number of successful deliveries in the cycle's event trace,
and equals the number of fingerprints appended to the ledger during the
cycle (the final ledger is the initial one plus exactly that many new
entries). -/
theorem C9_run_once_count (env : OrchEnv) (starts : List String) (sent0 : List String) :
    (process_all env starts sent0).total_new =
      delivered_ok_count (process_all env starts sent0).events ∧
    ∃ added, (process_all env starts sent0).sent = sent0 ++ added ∧
      added.length = (process_all env starts sent0).total_new := by
  have hstep : ∀ st url, (st.total_new = delivered_ok_count st.events ∧
      ∃ added, st.sent = sent0 ++ added ∧ added.length = st.total_new) →
      ((process_file env st url).total_new = delivered_ok_count (process_file env st url).events ∧
      ∃ added, (process_file env st url).sent = sent0 ++ added ∧
        added.length = (process_file env st url).total_new) := by
    intro st url ⟨hc, added, hs, hl⟩
    by_cases hm : sha1 url ∈ st.sent
    · rw [process_file_skip env st url hm]
      exact ⟨hc, added, hs, hl⟩
    · simp only [process_file, if_neg hm]
      cases env.download url with
      | none =>
        refine ⟨?_, added, hs, hl⟩
        rw [delivered_ok_count_append, ← hc]
        simp [delivered_ok_count]
      | some p =>
        simp only
        by_cases hsend : env.send p = true
        · simp only [hsend, if_pos rfl, ledger_add, if_neg hm, eq_self_iff_true, if_true]
          refine ⟨?_, added ++ [sha1 url], ?_, ?_⟩
          · rw [delivered_ok_count_append, delivered_ok_count_append,
              delivered_ok_count_append, ← hc]
            simp [delivered_ok_count]
          · simp [hs, List.append_assoc]
          · simp [hl]
        · simp only [Bool.not_eq_true] at hsend
          simp only [hsend, Bool.false_eq_true, if_false]
          refine ⟨?_, added, hs, hl⟩
          rw [delivered_ok_count_append, delivered_ok_count_append, ← hc]
          simp [delivered_ok_count]
  have hstart : ∀ st s, (st.total_new = delivered_ok_count st.events ∧
      ∃ added, st.sent = sent0 ++ added ∧ added.length = st.total_new) →
      ((process_start env st s).total_new = delivered_ok_count (process_start env st s).events ∧
      ∃ added, (process_start env st s).sent = sent0 ++ added ∧
        added.length = (process_start env st s).total_new) := by
    intro st s h
    exact foldl_preserve _ (process_file env) hstep (crawl_site env.net s) st h
  exact foldl_preserve
    (fun st => st.total_new = delivered_ok_count st.events ∧
      ∃ added, st.sent = sent0 ++ added ∧ added.length = st.total_new)
    (process_start env) hstart starts _ ⟨rfl, [], by simp, rfl⟩

/-! ## C2: idempotency of `process_all` -/

/-- C2.  If no remote content changes between two consecutive cycles over
the same start points and every discovered resource's download and
delivery succeed, then after the first cycle every discovered
fingerprint is in the ledger (and the on-disk ledger agrees with the
in-memory one that the second cycle loads), and the second cycle
delivers nothing: its counter is 0 and its event trace is empty — no
fetch and no delivery is even attempted. -/
theorem C2_run_once_idempotent (env : OrchEnv) (starts : List String) (sent0 : List String)
    (hok : ∀ s ∈ starts, ∀ url ∈ crawl_site env.net s,
      ∃ p, env.download url = some p ∧ env.send p = true) :
    (∀ s ∈ starts, ∀ url ∈ crawl_site env.net s,
      sha1 url ∈ (process_all env starts sent0).sent) ∧
    (process_all env starts sent0).disk = (process_all env starts sent0).sent ∧
    (process_all env starts (process_all env starts sent0).sent).total_new = 0 ∧
    (process_all env starts (process_all env starts sent0).sent).events = [] := by
  have hAll : ∀ s ∈ starts, ∀ url ∈ crawl_site env.net s,
      sha1 url ∈ (process_all env starts sent0).sent := by
    intro s hs url hurl
    exact fold_starts_success_mem env starts s url hs hurl (hok s hs url hurl) _
  have hdisk : (process_all env starts sent0).disk = (process_all env starts sent0).sent := by
    exact foldl_preserve (fun st => st.disk = st.sent) (process_start env)
      (fun st s h => foldl_preserve (fun st2 => st2.disk = st2.sent) (process_file env)
        (fun st2 u h2 => process_file_disk_eq env st2 u h2) (crawl_site env.net s) st h)
      starts _ rfl
  have hrun2 : process_all env starts (process_all env starts sent0).sent =
      ⟨(process_all env starts sent0).sent, (process_all env starts sent0).sent, 0, []⟩ := by
    exact fold_starts_all_skip env starts _ (fun s hs url hu => hAll s hs url hu)
  exact ⟨hAll, hdisk, by rw [hrun2], by rw [hrun2]⟩

/-- Witness for C2: over the scenario site with all downloads and
deliveries succeeding, the second cycle starting from the first cycle's
ledger produces no events and counts zero new uploads. -/
theorem C2_run_once_idempotent_witness :
    (process_all wenv ["http://h/index.html"]
      (process_all wenv ["http://h/index.html"] []).sent).total_new = 0 ∧
    (process_all wenv ["http://h/index.html"]
      (process_all wenv ["http://h/index.html"] []).sent).events = [] := by
  have h := C2_run_once_idempotent wenv ["http://h/index.html"] []
    (fun s _ url _ => ⟨"downloads/" ++ artifact_name url, rfl, rfl⟩)
  exact ⟨h.2.2.1, h.2.2.2⟩

/-! ## Crawler lemmas -/

theorem pop_unseen_spec (seen : List String) :
    ∀ q url rest, pop_unseen seen q = some (url, rest) →
      url ∉ seen ∧ url ∈ q ∧ ∀ x ∈ rest, x ∈ q := by
  intro q
  induction q with
  | nil => intro url rest h; cases h
  | cons a t ih =>
    intro url rest h
    by_cases ha : a ∈ seen
    · simp only [pop_unseen, if_pos ha] at h
      obtain ⟨h1, h2, h3⟩ := ih url rest h
      exact ⟨h1, List.mem_cons_of_mem a h2, fun x hx => List.mem_cons_of_mem a (h3 x hx)⟩
    · simp only [pop_unseen, if_neg ha, Option.some.injEq, Prod.mk.injEq] at h
      obtain ⟨h1, h2⟩ := h
      subst h1; subst h2
      exact ⟨ha, List.mem_cons_self a t, fun x hx => List.mem_cons_of_mem a hx⟩

theorem crawl_go_seen_le (net : String → Option Page) (host : String) :
    ∀ fuel q seen found, ((crawl_go net host fuel q seen found).2).length ≤ seen.length + fuel := by
  intro fuel
  induction fuel with
  | zero => intro q seen found; simp [crawl_go]
  | succ n ih =>
    intro q seen found
    simp only [crawl_go]
    cases hp : pop_unseen seen q with
    | none => simp
    | some pr =>
      obtain ⟨url, rest⟩ := pr
      simp only
      cases hnet : net url with
      | none =>
        have h := ih rest (seen ++ [url]) found
        simp only [List.length_append, List.length_singleton] at h
        exact Nat.le_trans h (by omega)
      | some page =>
        have h := ih (enqueue_links host url (seen ++ [url]) page.anchors rest)
          (seen ++ [url]) (collect_files url (page_tags page) found)
        simp only [List.length_append, List.length_singleton] at h
        exact Nat.le_trans h (by omega)

theorem crawl_go_seen_nodup (net : String → Option Page) (host : String) :
    ∀ fuel q seen found, seen.Nodup → ((crawl_go net host fuel q seen found).2).Nodup := by
  intro fuel
  induction fuel with
  | zero => intro q seen found h; exact h
  | succ n ih =>
    intro q seen found h
    simp only [crawl_go]
    cases hp : pop_unseen seen q with
    | none => exact h
    | some pr =>
      obtain ⟨url, rest⟩ := pr
      have hspec := pop_unseen_spec seen q url rest hp
      have hnodup : (seen ++ [url]).Nodup := by
        rw [List.nodup_append]
        exact ⟨h, List.nodup_singleton url, by
          intro x hx hx2
          rw [List.mem_singleton] at hx2
          subst hx2
          exact hspec.1 hx⟩
      simp only
      cases hnet : net url with
      | none => exact ih rest (seen ++ [url]) found hnodup
      | some page => exact ih _ (seen ++ [url]) _ hnodup

theorem enqueue_links_cons (host pu : String) (seen : List String) (a : String)
    (t q : List String) :
    enqueue_links host pu seen (a :: t) q =
      enqueue_links host pu seen t
        (if normalize_link pu a ≠ "" ∧ same_host (normalize_link pu a) host = true ∧
            normalize_link pu a ∉ seen ∧ normalize_link pu a ∉ q
         then q ++ [normalize_link pu a] else q) := rfl

theorem enqueue_links_mem (host pu : String) (seen : List String) :
    ∀ hrefs q x, x ∈ enqueue_links host pu seen hrefs q →
      x ∈ q ∨ same_host x host = true := by
  intro hrefs
  induction hrefs with
  | nil => intro q x h; exact Or.inl h
  | cons a t ih =>
    intro q x h
    rw [enqueue_links_cons] at h
    rcases ih _ x h with hq | hh
    · by_cases hc : normalize_link pu a ≠ "" ∧ same_host (normalize_link pu a) host = true ∧
          normalize_link pu a ∉ seen ∧ normalize_link pu a ∉ q
      · rw [if_pos hc] at hq
        rcases List.mem_append.mp hq with h1 | h2
        · exact Or.inl h1
        · rw [List.mem_singleton] at h2
          subst h2
          exact Or.inr hc.2.1
      · rw [if_neg hc] at hq
        exact Or.inl hq
    · exact Or.inr hh

theorem crawl_go_host_inv (net : String → Option Page) (host start : String) :
    ∀ fuel q seen found,
      (∀ u ∈ q, u = start ∨ same_host u host = true) →
      (∀ u ∈ seen, u = start ∨ same_host u host = true) →
      ∀ u ∈ (crawl_go net host fuel q seen found).2, u = start ∨ same_host u host = true := by
  intro fuel
  induction fuel with
  | zero => intro q seen found _ hseen; exact hseen
  | succ n ih =>
    intro q seen found hq hseen
    simp only [crawl_go]
    cases hp : pop_unseen seen q with
    | none => exact hseen
    | some pr =>
      obtain ⟨url, rest⟩ := pr
      have hspec := pop_unseen_spec seen q url rest hp
      have hurl := hq url hspec.2.1
      have hrest : ∀ u ∈ rest, u = start ∨ same_host u host = true :=
        fun u hu => hq u (hspec.2.2 u hu)
      have hseen' : ∀ u ∈ seen ++ [url], u = start ∨ same_host u host = true := by
        intro u hu
        rcases List.mem_append.mp hu with h1 | h2
        · exact hseen u h1
        · rw [List.mem_singleton] at h2; subst h2; exact hurl
      simp only
      cases hnet : net url with
      | none => exact ih rest (seen ++ [url]) found hrest hseen'
      | some page =>
        refine ih _ (seen ++ [url]) _ ?_ hseen'
        intro u hu
        rcases enqueue_links_mem host url (seen ++ [url]) page.anchors rest u hu with h1 | h2
        · exact hrest u h1
        · exact Or.inr h2

theorem collect_files_cons (pu a : String) (t acc : List String) :
    collect_files pu (a :: t) acc =
      collect_files pu t
        (if a = "" then acc
         else if normalize_link pu a = "" then acc
         else if is_wanted_file (normalize_link pu a) then acc ++ [normalize_link pu a]
         else acc) := rfl

theorem collect_files_append (pu : String) :
    ∀ hrefs acc, collect_files pu hrefs acc = acc ++ collect_files pu hrefs [] := by
  intro hrefs
  induction hrefs with
  | nil => intro acc; simp [collect_files]
  | cons a t ih =>
    intro acc
    rw [collect_files_cons pu a t acc, collect_files_cons pu a t []]
    by_cases h1 : a = ""
    · simp only [if_pos h1]
      exact ih acc
    · simp only [if_neg h1]
      by_cases h2 : normalize_link pu a = ""
      · simp only [if_pos h2]
        exact ih acc
      · simp only [if_neg h2]
        by_cases h3 : is_wanted_file (normalize_link pu a) = true
        · simp only [if_pos h3]
          rw [ih (acc ++ [normalize_link pu a]), ih ([] ++ [normalize_link pu a])]
          simp [List.append_assoc]
        · simp only [Bool.not_eq_true] at h3
          simp only [h3, Bool.false_eq_true, if_false]
          exact ih acc

theorem crawl_go_found_mono (net : String → Option Page) (host : String) :
    ∀ fuel q seen found, ∀ f ∈ found, f ∈ (crawl_go net host fuel q seen found).1 := by
  intro fuel
  induction fuel with
  | zero => intro q seen found f hf; exact hf
  | succ n ih =>
    intro q seen found f hf
    simp only [crawl_go]
    cases hp : pop_unseen seen q with
    | none => exact hf
    | some pr =>
      obtain ⟨url, rest⟩ := pr
      simp only
      cases hnet : net url with
      | none => exact ih rest (seen ++ [url]) found f hf
      | some page =>
        refine ih _ (seen ++ [url]) _ f ?_
        rw [collect_files_append]
        exact List.mem_append.mpr (Or.inl hf)

theorem crawl_go_collects (net : String → Option Page) (host : String) :
    ∀ fuel q seen found,
      (∀ u ∈ seen, ∀ pg, net u = some pg →
        ∀ f ∈ collect_files u (page_tags pg) [], f ∈ found) →
      ∀ u ∈ (crawl_go net host fuel q seen found).2, ∀ pg, net u = some pg →
        ∀ f ∈ collect_files u (page_tags pg) [], f ∈ (crawl_go net host fuel q seen found).1 := by
  intro fuel
  induction fuel with
  | zero => intro q seen found hinv u hu pg hpg f hf; exact hinv u hu pg hpg f hf
  | succ n ih =>
    intro q seen found hinv
    simp only [crawl_go]
    cases hp : pop_unseen seen q with
    | none => exact fun u hu pg hpg f hf => hinv u hu pg hpg f hf
    | some pr =>
      obtain ⟨url, rest⟩ := pr
      simp only
      cases hnet : net url with
      | none =>
        refine ih rest (seen ++ [url]) found ?_
        intro u hu pg hpg f hf
        rcases List.mem_append.mp hu with h1 | h2
        · exact hinv u h1 pg hpg f hf
        · rw [List.mem_singleton] at h2
          subst h2
          rw [hnet] at hpg
          cases hpg
      | some page =>
        refine ih _ (seen ++ [url]) _ ?_
        intro u hu pg hpg f hf
        rcases List.mem_append.mp hu with h1 | h2
        · rw [collect_files_append]
          exact List.mem_append.mpr (Or.inl (hinv u h1 pg hpg f hf))
        · rw [List.mem_singleton] at h2
          subst h2
          rw [hnet] at hpg
          injection hpg with hpg
          subst hpg
          rw [collect_files_append]
          exact List.mem_append.mpr (Or.inr hf)

/-! ## Deduplication lemmas -/

theorem dedup_pair (l : List String) :
    ∀ acc, (l.foldl (fun (acc : List String × List String) f =>
      if f ∈ acc.2 then acc else (acc.1 ++ [f], acc.2 ++ [f])) (acc, acc)).1 = dedup_go acc l := by
  induction l with
  | nil => intro acc; rfl
  | cons a t ih =>
    intro acc
    simp only [List.foldl_cons, dedup_go]
    by_cases h : a ∈ acc
    · simp only [if_pos h]
      exact ih acc
    · simp only [if_neg h]
      exact ih (acc ++ [a])

theorem dedup_keep_order_eq (l : List String) : dedup_keep_order l = dedup_go [] l :=
  dedup_pair l []

theorem dedup_go_mem : ∀ (l acc : List String) (x : String),
    x ∈ dedup_go acc l ↔ x ∈ acc ∨ x ∈ l := by
  intro l
  induction l with
  | nil => intro acc x; simp [dedup_go]
  | cons a t ih =>
    intro acc x
    simp only [dedup_go]
    by_cases h : a ∈ acc
    · rw [if_pos h, ih]
      constructor
      · rintro (h1 | h2)
        · exact Or.inl h1
        · exact Or.inr (List.mem_cons_of_mem a h2)
      · rintro (h1 | h2)
        · exact Or.inl h1
        · rcases List.mem_cons.mp h2 with h3 | h4
          · subst h3; exact Or.inl h
          · exact Or.inr h4
    · rw [if_neg h, ih]
      simp only [List.mem_append, List.mem_singleton, List.mem_cons]
      tauto

theorem dedup_go_nodup : ∀ (l acc : List String), acc.Nodup → (dedup_go acc l).Nodup := by
  intro l
  induction l with
  | nil => intro acc h; exact h
  | cons a t ih =>
    intro acc h
    simp only [dedup_go]
    by_cases ha : a ∈ acc
    · rw [if_pos ha]; exact ih acc h
    · rw [if_neg ha]
      refine ih (acc ++ [a]) ?_
      rw [List.nodup_append]
      exact ⟨h, List.nodup_singleton a, by
        intro x hx hx2
        rw [List.mem_singleton] at hx2
        subst hx2
        exact ha hx⟩

theorem dedup_go_split : ∀ (l acc : List String),
    ∃ t, dedup_go acc l = acc ++ t ∧ t.Sublist l := by
  intro l
  induction l with
  | nil => intro acc; exact ⟨[], by simp [dedup_go]⟩
  | cons a t ih =>
    intro acc
    simp only [dedup_go]
    by_cases ha : a ∈ acc
    · rw [if_pos ha]
      obtain ⟨u, hu, hsub⟩ := ih acc
      exact ⟨u, hu, hsub.trans (List.sublist_cons_self a t)⟩
    · rw [if_neg ha]
      obtain ⟨u, hu, hsub⟩ := ih (acc ++ [a])
      refine ⟨a :: u, ?_, List.Sublist.cons₂ a hsub⟩
      rw [hu, List.append_assoc]
      rfl

/-! ## C6: the crawl visits at most `maxPages` distinct pages -/

/-- C6.  For every network (page graph) and start URL, the crawl
terminates (it is a total function) having visited — popped from the
queue, recorded in `seen_pages` and fetched — at most `maxPages` URLs,
and the visited URLs are pairwise distinct. -/
theorem C6_crawl_page_bound (net : String → Option Page) (start_url : String) (maxPages : Nat) :
    ((crawl_site_with_seen net start_url maxPages).2).length ≤ maxPages ∧
    ((crawl_site_with_seen net start_url maxPages).2).Nodup := by
  constructor
  · have h := crawl_go_seen_le net ((urlparse start_url).netloc) maxPages [start_url] [] []
    simpa [crawl_site_with_seen] using h
  · have h := crawl_go_seen_nodup net ((urlparse start_url).netloc) maxPages [start_url] [] []
      List.nodup_nil
    simpa [crawl_site_with_seen] using h

/-! ## C7: host containment -/

/-- C7.  (i) The traversal loop only ever enqueues URLs whose host equals
the start host: anything in the queue after `enqueue_links` was already
queued or is on the crawl host.  Consequently (ii) every URL the crawl
visits is the start URL itself or has the start URL's host — a page on
another host is never fetched.  (iii) File collection ignores the host
entirely: every wanted link of every visited page whose HTML was
obtained is in the returned list, whatever its host. -/
theorem C7_host_containment (net : String → Option Page) (start_url : String) (maxPages : Nat) :
    (∀ host pu seen q hrefs x, x ∈ enqueue_links host pu seen hrefs q →
      x ∈ q ∨ same_host x host = true) ∧
    (∀ u ∈ (crawl_site_with_seen net start_url maxPages).2,
      u = start_url ∨ same_host u ((urlparse start_url).netloc) = true) ∧
    (∀ u ∈ (crawl_site_with_seen net start_url maxPages).2, ∀ pg, net u = some pg →
      ∀ f ∈ collect_files u (page_tags pg) [],
        f ∈ (crawl_site_with_seen net start_url maxPages).1) := by
  refine ⟨fun host pu seen q hrefs x h => enqueue_links_mem host pu seen hrefs q x h, ?_, ?_⟩
  · intro u hu
    refine crawl_go_host_inv net ((urlparse start_url).netloc) start_url maxPages
      [start_url] [] [] ?_ ?_ u ?_
    · intro v hv
      rw [List.mem_singleton] at hv
      exact Or.inl hv
    · intro v hv; cases hv
    · simpa [crawl_site_with_seen] using hu
  · intro u hu pg hpg f hf
    have h := crawl_go_collects net ((urlparse start_url).netloc) maxPages
      [start_url] [] [] (fun v hv => by cases hv) u
      (by simpa [crawl_site_with_seen] using hu) pg hpg f hf
    simp only [crawl_site_with_seen]
    rw [dedup_keep_order_eq, dedup_go_mem]
    exact Or.inr h

/-- Witness for C7: on a page linking to `http://other/f.pdf` from host
`h`, the foreign-host file is collected in the crawl's result even though
it is never visited (it is not among the visited URLs). -/
theorem C7_host_containment_witness :
    "http://other/f.pdf" ∈ (crawl_site_with_seen foreign_net "http://h/index.html" 500).1 ∧
    ("http://h/index.html" = "http://h/index.html" ∨
      same_host "http://h/index.html" ((urlparse "http://h/index.html").netloc) = true) := by
  have h := C7_host_containment foreign_net "http://h/index.html" 500
  refine ⟨?_, h.2.1 "http://h/index.html" (by decide)⟩
  refine h.2.2 "http://h/index.html" (by decide) ⟨["http://other/f.pdf"], [], []⟩ rfl
    "http://other/f.pdf" (by decide)

/-! ## First-occurrence order lemmas -/

theorem dedup_go_eq_firstOccurrences :
    ∀ (l acc : List String),
      dedup_go acc l = acc ++ firstOccurrences (l.filter (fun y => decide (y ∉ acc))) := by
  intro l
  induction l with
  | nil => intro acc; rw [List.filter_nil, firstOccurrences]; simp [dedup_go]
  | cons a t ih =>
    intro acc
    simp only [dedup_go]
    by_cases h : a ∈ acc
    · rw [if_pos h, ih acc, List.filter_cons]
      have hpa : (decide (a ∉ acc)) = false := by simp [h]
      rw [hpa]
      simp only [Bool.false_eq_true, if_false]
    · rw [if_neg h, ih (acc ++ [a]), List.filter_cons]
      have hpa : (decide (a ∉ acc)) = true := by simp [h]
      rw [hpa, if_pos rfl]
      have hfil : t.filter (fun y => decide (y ∉ acc ++ [a])) =
          (t.filter (fun y => decide (y ∉ acc))).filter (fun y => y != a) := by
        rw [List.filter_filter]
        refine List.filter_congr ?_
        intro y _
        by_cases h1 : y = a
        · subst h1; simp [List.mem_append]
        · by_cases h2 : y ∈ acc <;> simp [h1, h2, List.mem_append]
      rw [hfil, firstOccurrences, List.append_assoc]
      rfl

theorem firstOccurrences_subset :
    ∀ l : List String, ∀ x ∈ firstOccurrences l, x ∈ l := by
  intro l
  induction l using firstOccurrences.induct with
  | case1 => intro x hx; rw [firstOccurrences] at hx; cases hx
  | case2 a t ih =>
    intro x hx
    rw [firstOccurrences] at hx
    rcases List.mem_cons.mp hx with h1 | h2
    · subst h1; exact List.mem_cons_self _ _
    · exact List.mem_cons_of_mem a (List.mem_filter.mp (ih x h2)).1

theorem firstOccurrences_mem :
    ∀ l : List String, ∀ x, x ∈ firstOccurrences l ↔ x ∈ l := by
  intro l
  induction l using firstOccurrences.induct with
  | case1 => intro x; rw [firstOccurrences]
  | case2 a t ih =>
    intro x
    rw [firstOccurrences]
    constructor
    · intro hx
      rcases List.mem_cons.mp hx with h1 | h2
      · subst h1; exact List.mem_cons_self _ _
      · exact List.mem_cons_of_mem a (List.mem_filter.mp ((ih x).mp h2)).1
    · intro hx
      rcases List.mem_cons.mp hx with h1 | h2
      · subst h1; exact List.mem_cons_self _ _
      · by_cases hxa : x = a
        · subst hxa; exact List.mem_cons_self _ _
        · refine List.mem_cons_of_mem a ((ih x).mpr ?_)
          exact List.mem_filter.mpr ⟨h2, bne_iff_ne.mpr hxa⟩

theorem firstOccurrences_nodup : ∀ l : List String, (firstOccurrences l).Nodup := by
  intro l
  induction l using firstOccurrences.induct with
  | case1 => rw [firstOccurrences]; exact List.nodup_nil
  | case2 a t ih =>
    rw [firstOccurrences, List.nodup_cons]
    refine ⟨?_, ih⟩
    intro ha
    have := (List.mem_filter.mp (firstOccurrences_subset _ a ha)).2
    simp at this

theorem firstOccurrences_sublist : ∀ l : List String, (firstOccurrences l).Sublist l := by
  intro l
  induction l using firstOccurrences.induct with
  | case1 => rw [firstOccurrences]
  | case2 a t ih =>
    rw [firstOccurrences]
    exact List.Sublist.cons₂ a (ih.trans (List.filter_sublist t))

theorem firstIdx_cons (x w : String) (t : List String) :
    firstIdx x (w :: t) = if w = x then 0 else firstIdx x t + 1 := rfl

theorem firstIdx_filter_ne (z x y : String) (hx : x ≠ z) (hy : y ≠ z) :
    ∀ l : List String,
      (firstIdx x (l.filter (fun w => w != z)) ≤ firstIdx y (l.filter (fun w => w != z)) ↔
        firstIdx x l ≤ firstIdx y l) := by
  intro l
  induction l with
  | nil => simp
  | cons w t ih =>
    rw [List.filter_cons]
    by_cases hw : w = z
    · subst hw
      have hbne : (w != w) = false := by simp
      rw [hbne]
      simp only [Bool.false_eq_true, if_false, firstIdx_cons]
      rw [if_neg (fun hh => hx hh.symm), if_neg (fun hh => hy hh.symm),
        Nat.add_le_add_iff_right]
      exact ih
    · have hbne : (w != z) = true := bne_iff_ne.mpr hw
      rw [hbne, if_pos rfl]
      simp only [firstIdx_cons]
      by_cases hxw : w = x
      · subst hxw
        simp [Nat.zero_le]
      · by_cases hyw : w = y
        · subst hyw
          simp only [if_neg hxw, eq_self_iff_true, if_true]
          omega
        · simp only [if_neg hxw, if_neg hyw]
          rw [Nat.add_le_add_iff_right, Nat.add_le_add_iff_right]
          exact ih

theorem firstOccurrences_firstIdx :
    ∀ l : List String, ∀ x ∈ firstOccurrences l, ∀ y ∈ firstOccurrences l,
      (firstIdx x (firstOccurrences l) ≤ firstIdx y (firstOccurrences l) ↔
        firstIdx x l ≤ firstIdx y l) := by
  intro l
  induction l using firstOccurrences.induct with
  | case1 => intro x hx; rw [firstOccurrences] at hx; cases hx
  | case2 a t ih =>
    intro x hx y hy
    rw [firstOccurrences] at hx hy ⊢
    by_cases hxa : a = x
    · subst hxa
      simp only [firstIdx_cons, if_pos rfl]
      simp [Nat.zero_le]
    · by_cases hya : a = y
      · subst hya
        simp only [firstIdx_cons, if_neg hxa, eq_self_iff_true, if_true]
        omega
      · have hx2 : x ∈ firstOccurrences (t.filter (fun w => w != a)) := by
          rcases List.mem_cons.mp hx with h1 | h2
          · exact absurd h1.symm hxa
          · exact h2
        have hy2 : y ∈ firstOccurrences (t.filter (fun w => w != a)) := by
          rcases List.mem_cons.mp hy with h1 | h2
          · exact absurd h1.symm hya
          · exact h2
        simp only [firstIdx_cons, if_neg hxa, if_neg hya]
        rw [Nat.add_le_add_iff_right, Nat.add_le_add_iff_right]
        rw [ih x hx2 y hy2]
        exact firstIdx_filter_ne a x y (fun hh => hxa hh.symm) (fun hh => hya hh.symm) t

theorem dedup_keep_order_eq_firstOccurrences (l : List String) :
    dedup_keep_order l = firstOccurrences l := by
  rw [dedup_keep_order_eq, dedup_go_eq_firstOccurrences, List.nil_append]
  congr 1
  have : ∀ y : String, (decide (y ∉ ([] : List String))) = true := by intro y; simp
  rw [List.filter_congr (fun a _ => this a), List.filter_true]

/-! ## C5: duplicate-free result in first-appearance order -/

/-- C5.  For every network and start URL: the list `crawl_site` returns is
the post-traversal deduplication of the raw traversal-order list
`found_files`; it contains no duplicates; it has exactly the members of
`found_files`; it is a subsequence of `found_files` (so relative order is
preserved); and its order is the order of first appearance in
`found_files`: for any two returned URLs, their first occurrences come in
the same relative order as in the traversal list. -/
theorem C5_crawl_dedup_order (net : String → Option Page) (start_url : String) :
    crawl_site net start_url =
      dedup_keep_order
        (crawl_go net ((urlparse start_url).netloc) MAX_PAGES_PER_SITE [start_url] [] []).1 ∧
    (crawl_site net start_url).Nodup ∧
    (∀ x, x ∈ crawl_site net start_url ↔
      x ∈ (crawl_go net ((urlparse start_url).netloc) MAX_PAGES_PER_SITE [start_url] [] []).1) ∧
    (crawl_site net start_url).Sublist
      (crawl_go net ((urlparse start_url).netloc) MAX_PAGES_PER_SITE [start_url] [] []).1 ∧
    (∀ x ∈ crawl_site net start_url, ∀ y ∈ crawl_site net start_url,
      (firstIdx x (crawl_site net start_url) ≤ firstIdx y (crawl_site net start_url) ↔
        firstIdx x (crawl_go net ((urlparse start_url).netloc) MAX_PAGES_PER_SITE
          [start_url] [] []).1 ≤
        firstIdx y (crawl_go net ((urlparse start_url).netloc) MAX_PAGES_PER_SITE
          [start_url] [] []).1)) := by
  have hres : crawl_site net start_url =
      firstOccurrences
        (crawl_go net ((urlparse start_url).netloc) MAX_PAGES_PER_SITE [start_url] [] []).1 := by
    rw [show crawl_site net start_url =
      dedup_keep_order
        (crawl_go net ((urlparse start_url).netloc) MAX_PAGES_PER_SITE [start_url] [] []).1
      from rfl]
    exact dedup_keep_order_eq_firstOccurrences _
  refine ⟨rfl, ?_, ?_, ?_, ?_⟩
  · rw [hres]; exact firstOccurrences_nodup _
  · intro x; rw [hres]; exact firstOccurrences_mem _ x
  · rw [hres]; exact firstOccurrences_sublist _
  · intro x hx y hy
    rw [hres] at hx hy ⊢
    exact firstOccurrences_firstIdx _ x hx y hy

/-- Witness for C5: on a page listing `a.pdf`, `b.pdf`, `a.pdf`, the crawl
returns a duplicate-free list and keeps `a.pdf` before `b.pdf`, matching
the first-appearance order of the traversal list. -/
theorem C5_crawl_dedup_order_witness :
    (crawl_site dup_net "http://h/index.html").Nodup ∧
    (firstIdx "http://h/a.pdf" (crawl_site dup_net "http://h/index.html") ≤
        firstIdx "http://h/b.pdf" (crawl_site dup_net "http://h/index.html") ↔
      firstIdx "http://h/a.pdf" (crawl_go dup_net ((urlparse "http://h/index.html").netloc)
          MAX_PAGES_PER_SITE ["http://h/index.html"] [] []).1 ≤
        firstIdx "http://h/b.pdf" (crawl_go dup_net ((urlparse "http://h/index.html").netloc)
          MAX_PAGES_PER_SITE ["http://h/index.html"] [] []).1) := by
  have h := C5_crawl_dedup_order dup_net "http://h/index.html"
  exact ⟨h.2.1, h.2.2.2.2 "http://h/a.pdf" (by decide) "http://h/b.pdf" (by decide)⟩

/-! ## `urlsplit` path lemmas (for C4) -/

theorem data_mk (l : List Char) : (String.mk l).data = l := rfl

theorem findIdxP_eq_none (p : Char → Bool) :
    ∀ l, (∀ c ∈ l, p c = false) → findIdxP p l = none := by
  intro l
  induction l with
  | nil => intro _; rfl
  | cons a t ih =>
    intro h
    simp only [findIdxP]
    rw [h a (List.mem_cons_self _ _)]
    simp only [Bool.false_eq_true, if_false]
    rw [ih (fun c hc => h c (List.mem_cons_of_mem a hc))]
    rfl

theorem splitScheme_snd_drop (ds l : List Char) : ∃ k, (splitScheme ds l).2 = l.drop k := by
  unfold splitScheme
  cases findIdxP (fun x => x = ':') l with
  | none => exact ⟨0, rfl⟩
  | some i =>
    simp only
    split
    · exact ⟨i + 1, rfl⟩
    · exact ⟨0, rfl⟩

theorem splitNetloc_snd_drop (l : List Char) : ∃ k, (splitNetloc l).2 = l.drop k := by
  unfold splitNetloc
  split
  · exact ⟨_, List.drop_drop _ 2 l⟩
  · exact ⟨0, rfl⟩

theorem splitAtChar_not_mem (c : Char) (l : List Char) (h : c ∉ l) :
    splitAtChar c l = (l, []) := by
  unfold splitAtChar
  rw [findIdxP_eq_none]
  intro x hx
  simp only [decide_eq_false_iff_not]
  intro he
  subst he
  exact h hx

theorem removeUnsafe_eq_self (l : List Char)
    (h : ∀ c ∈ l, c ≠ '\t' ∧ c ≠ '\r' ∧ c ≠ '\n') : removeUnsafe l = l := by
  unfold removeUnsafe
  rw [List.filter_eq_self]
  intro a ha
  obtain ⟨h1, h2, h3⟩ := h a ha
  simp [h1, h2, h3]

theorem urlsplit_path_drop (url : String)
    (hclean : ∀ c ∈ url.data, c ≠ '\t' ∧ c ≠ '\r' ∧ c ≠ '\n')
    (hq : '?' ∉ url.data) (hf : '#' ∉ url.data) :
    ∃ k, ((urlsplitWith "" url).path).data = url.data.drop k := by
  have h0 : removeUnsafe url.data = url.data := removeUnsafe_eq_self url.data hclean
  obtain ⟨k1, hk1⟩ :=
    splitScheme_snd_drop (removeUnsafe ("" : String).data) (removeUnsafe url.data)
  obtain ⟨k2, hk2⟩ :=
    splitNetloc_snd_drop (splitScheme (removeUnsafe ("" : String).data) (removeUnsafe url.data)).2
  have hA : (splitNetloc
      (splitScheme (removeUnsafe ("" : String).data) (removeUnsafe url.data)).2).2 =
      url.data.drop (k1 + k2) := by
    rw [hk2, hk1, h0, List.drop_drop]
  have hfm : '#' ∉ (splitNetloc
      (splitScheme (removeUnsafe ("" : String).data) (removeUnsafe url.data)).2).2 := by
    rw [hA]; exact fun hc => hf (List.mem_of_mem_drop hc)
  have hfr := splitAtChar_not_mem '#' _ hfm
  have hqm : '?' ∉ (splitNetloc
      (splitScheme (removeUnsafe ("" : String).data) (removeUnsafe url.data)).2).2 := by
    rw [hA]; exact fun hc => hq (List.mem_of_mem_drop hc)
  have hqr := splitAtChar_not_mem '?' _ hqm
  refine ⟨k1 + k2, ?_⟩
  unfold urlsplitWith
  simp only [hfr, hqr, data_mk]
  exact hA

theorem urlparse_path_drop (url : String)
    (hclean : ∀ c ∈ url.data, c ≠ '\t' ∧ c ≠ '\r' ∧ c ≠ '\n' ∧ c ≠ ';')
    (hq : '?' ∉ url.data) (hf : '#' ∉ url.data) :
    ∃ k, ((urlparse url).path).data = url.data.drop k := by
  obtain ⟨k, hk⟩ := urlsplit_path_drop url
    (fun c hc => ⟨(hclean c hc).1, (hclean c hc).2.1, (hclean c hc).2.2.1⟩) hq hf
  have hsemi : ';' ∉ ((urlsplitWith "" url).path).data := by
    rw [hk]
    intro hc
    exact (hclean ';' (List.mem_of_mem_drop hc)).2.2.2 rfl
  have hcontains : ((urlsplitWith "" url).path.data.contains ';') = false := by
    by_cases hb : (urlsplitWith "" url).path.data.contains ';' = true
    · exact absurd (List.elem_iff.mp hb) hsemi
    · exact Bool.eq_false_iff.mpr hb
  refine ⟨k, ?_⟩
  unfold urlparse urlparseWith
  simp only [hcontains, Bool.and_false, Bool.false_eq_true, if_false]
  exact hk

theorem pyEndsWith_lower_drop (url P e : String) (k : Nat)
    (hP : P.data = url.data.drop k) (hlen : 4 ≤ P.data.length) (he : e.data.length = 4) :
    pyEndsWith (pyLower url) e = pyEndsWith (pyLower P) e := by
  have hlen2 : 4 ≤ url.data.length - k := by
    rw [hP, List.length_drop] at hlen
    exact hlen
  have harith : k + (url.data.length - k - 4) = url.data.length - 4 := by omega
  unfold pyEndsWith pyLower
  simp only [data_mk, hP, List.map_drop, List.drop_drop, List.length_drop,
    List.length_map, he]
  rw [harith]

/-! ## C4: the file-candidate test (URL string vs. path component) -/

/-- Counterexample to C4 as stated.  For `http://h/a.pdf?dl=1` the
lowercased *path* (`/a.pdf`) ends with the wanted suffix `.pdf`, but the
code's classifier `is_wanted_file` rejects the URL (the query participates
in its suffix test); conversely `http://h/get?name=.pdf` is accepted by
the code although its path (`/get`) matches no wanted suffix.  So the
classifier is not the path-suffix rule the claim states. -/
theorem C4_counterexample :
    spec_is_file_candidate "http://h/a.pdf?dl=1" = true ∧
    is_wanted_file "http://h/a.pdf?dl=1" = false ∧
    is_wanted_file "http://h/get?name=.pdf" = true ∧
    spec_is_file_candidate "http://h/get?name=.pdf" = false := by decide

/-- C4 (amended).  The Link Extractor classifies a URL as a file-candidate
iff the *whole lowercased URL string* ends with a configured wanted suffix
(case-insensitive, exact suffix match); the query and fragment DO
participate in the match.  This coincides with the spec's path-component
rule exactly on URLs that contain no `?`, `#`, `;` (or the sanitised
control characters) and whose path component is at least as long as a
suffix, since the path is then a literal tail of the URL string. -/
theorem C4_file_candidate_rule_amended :
    (∀ url, is_wanted_file url =
      (pyEndsWith (pyLower url) ".mp4" || pyEndsWith (pyLower url) ".pdf")) ∧
    (∀ url : String,
      (∀ c ∈ url.data, c ≠ '\t' ∧ c ≠ '\r' ∧ c ≠ '\n' ∧ c ≠ ';') →
      '?' ∉ url.data → '#' ∉ url.data →
      4 ≤ ((urlparse url).path).data.length →
      is_wanted_file url = spec_is_file_candidate url) := by
  constructor
  · intro url
    simp [is_wanted_file, WANTED_EXTS]
  · intro url hclean hq hf hlen
    obtain ⟨k, hk⟩ := urlparse_path_drop url hclean hq hf
    have h1 := pyEndsWith_lower_drop url ((urlparse url).path) ".mp4" k hk hlen (by decide)
    have h2 := pyEndsWith_lower_drop url ((urlparse url).path) ".pdf" k hk hlen (by decide)
    simp [is_wanted_file, spec_is_file_candidate, WANTED_EXTS, h1, h2]

/-- Witness for the amended C4 at `http://h/b.mp4`: the code's classifier
agrees with the path rule there, and follows the whole-URL suffix rule. -/
theorem C4_file_candidate_rule_amended_witness :
    is_wanted_file "http://h/b.mp4" = spec_is_file_candidate "http://h/b.mp4" ∧
    is_wanted_file "http://h/b.mp4" =
      (pyEndsWith (pyLower "http://h/b.mp4") ".mp4" ||
        pyEndsWith (pyLower "http://h/b.mp4") ".pdf") := by
  have h := C4_file_candidate_rule_amended
  exact ⟨h.2 "http://h/b.mp4" (by decide) (by decide) (by decide) (by decide),
    h.1 "http://h/b.mp4"⟩

/-! ## C3: the end-to-end scenario -/

/-- Counterexample to C3 as stated.  On the spec's two-page site the crawl
does return `["http://h/a.pdf", "http://h/b.mp4"]`, but it does not visit
exactly 2 distinct pages: the two file URLs are same-host anchors, so the
crawler also enqueues, pops and probes them, recording 4 visited URLs. -/
theorem C3_scenario_counterexample :
    ¬ (crawl_site scenario_net "http://h/index.html" =
        ["http://h/a.pdf", "http://h/b.mp4"] ∧
      ((crawl_site_with_seen scenario_net "http://h/index.html" 500).2).length = 2) := by
  decide

/-- C3 (amended).  With `maxPages = 500` (the configured
`MAX_PAGES_PER_SITE`), the crawl of the scenario site returns exactly
`["http://h/a.pdf", "http://h/b.mp4"]` in that order, and visits exactly
the 4 URLs `index.html`, `a.pdf`, `page2.html`, `b.mp4` in that order —
the two HTML pages plus the two file URLs, which are also enqueued as
same-host anchors; exactly 2 of the visited URLs are HTML pages. -/
theorem C3_scenario_amended :
    crawl_site scenario_net "http://h/index.html" =
      ["http://h/a.pdf", "http://h/b.mp4"] ∧
    MAX_PAGES_PER_SITE = 500 ∧
    (crawl_site_with_seen scenario_net "http://h/index.html" 500).2 =
      ["http://h/index.html", "http://h/a.pdf", "http://h/page2.html", "http://h/b.mp4"] ∧
    ((crawl_site_with_seen scenario_net "http://h/index.html" 500).2.filter
      (fun u => (scenario_net u).isSome)).length = 2 := by
  decide

end UploaderBot
